import Mathlib

/-!
Shallow embedding of `perfsession/symbolize.go` (package `perfsession`),
the symbolization engine of a perf-profile analysis tool.

Machine integers (`uint64`) are modelled as `Nat`, with wrap-around taken
mod `2^64` exactly where the Go code can overflow (the relocation
translation `ip - mmap.Addr + mmap.FileOffset` and the ELF section
translation).  External libraries (`debug/elf`, `debug/dwarf`, the file
system, the demangler) are modelled as explicit inputs: an `ElfFile` /
`DwarfData` value describes what the library would have returned, and the
demangler is a `String → String` parameter.
-/

namespace Perfsession

/-- 2^64, the modulus of Go's `uint64` arithmetic. -/
def M64 : Nat := 2 ^ 64

/-- `funcRange` from symbolize.go: one entry of the function Range Table. -/
structure funcRange where
  name : String
  lowpc : Nat
  highpc : Nat
  demangled : Bool
deriving Repr, DecidableEq

instance : Inhabited funcRange := ⟨⟨"", 0, 0, false⟩⟩

/-- Model of `dwarf.LineEntry` restricted to the fields the program reads:
address, source file, source line, end-of-sequence flag.  The zero value
(the `dwarf.LineEntry{}` written by `Symbolize` on a miss) is `default`. -/
structure LineEntry where
  address : Nat
  file : String
  line : Nat
  endSequence : Bool
deriving Repr, DecidableEq

instance : Inhabited LineEntry := ⟨⟨0, "", 0, false⟩⟩

/-- The zero `dwarf.LineEntry{}`. -/
def zeroLineEntry : LineEntry := ⟨0, "", 0, false⟩

/-- `type symbolicExtra`: the Image Table.  `functab = none` models a nil
slice, `linetab = none` a nil slice; `isReloc` says lowpc/highpc in
`functab` are ELF file offsets rather than virtual addresses. -/
structure symbolicExtra where
  functab : Option (List funcRange)
  linetab : Option (List LineEntry)
  isReloc : Bool
deriving Repr, DecidableEq

/-- `Mmap` fields consumed by symbolization (`Filename`, `Addr`,
`FileOffset`). -/
structure Mmap where
  filename : String
  addr : Nat
  fileOffset : Nat
deriving Repr, DecidableEq

/-- `Symbolic`, the out-parameter of `Symbolize`. -/
structure Symbolic where
  funcName : String
  line : LineEntry
deriving Repr, DecidableEq

/-- List indexing with the type's default value out of range (Go slice
indexing in the model is always guarded by a bound, so the default is
never observed). -/
def nth [Inhabited α] (l : List α) (k : Nat) : α := l.getD k default

/-- The loop of Go's `sort.Search`:
`i, j := 0, n; for i < j { h := (i+j)/2; if !f(h) { i = h+1 } else { j = h } }`,
with an explicit fuel bound for structural recursion.  Every iteration
strictly shrinks `j - i`, so any `fuel ≥ j - i` yields the loop's value
(`searchLoop` passes exactly `j - i`). -/
def searchLoopAux (f : Nat → Bool) : Nat → Nat → Nat → Nat
  | 0, i, _ => i
  | fuel + 1, i, j =>
    if i < j then
      let m := (i + j) / 2
      if f m then searchLoopAux f fuel i m else searchLoopAux f fuel (m + 1) j
    else i

/-- The `sort.Search` loop from state `i, j`. -/
def searchLoop (f : Nat → Bool) (i j : Nat) : Nat := searchLoopAux f (j - i) i j

/-- Go's `sort.Search(n, f)`. -/
def sortSearch (n : Nat) (f : Nat → Bool) : Nat := searchLoop f 0 n

/-- The binary-search index used by the function lookup in
`symbolicExtra.findIP`: first entry whose `highpc` exceeds `ip`. -/
def searchIdx (tab : List funcRange) (ip : Nat) : Nat :=
  sortSearch tab.length (fun k => decide (ip < (nth tab k).highpc))

/-- The function-lookup block of `symbolicExtra.findIP` (symbolize.go
lines 212-221), acting on the Range Table: binary search, acceptance test
`lowpc <= ip < highpc`, and lazy in-place demangling of the matched
entry's name.  Returns the matched entry (after any demangling), and the
updated Range Table. -/
def funcLookup (dem : String → String) (tab : List funcRange) (ip : Nat) :
    Option funcRange × List funcRange :=
  let i := searchIdx tab ip
  if h : i < tab.length then
    let r := tab.get ⟨i, h⟩
    if r.lowpc ≤ ip ∧ ip < r.highpc then
      if r.demangled then (some r, tab)
      else
        let r' : funcRange := ⟨dem r.name, r.lowpc, r.highpc, true⟩
        (some r', tab.set i r')
    else (none, tab)
  else (none, tab)

/-- The line-lookup block of `symbolicExtra.findIP` (symbolize.go lines
224-231): first entry whose address exceeds `ip`, step back one, reject
end-of-sequence markers. -/
def lineLookup (linetab : List LineEntry) (ip : Nat) : Option LineEntry :=
  let i := sortSearch linetab.length (fun k => decide (ip < (nth linetab k).address))
  if i ≠ 0 ∧ (nth linetab (i - 1)).endSequence = false then
    some (nth linetab (i - 1))
  else none

/-- The relocation translation `ip = ip - mmap.Addr + mmap.FileOffset` in
`uint64` arithmetic (wrap-around mod 2^64 made explicit). -/
def translate (mmap : Mmap) (ip : Nat) : Nat :=
  (ip + (M64 - mmap.addr % M64) + mmap.fileOffset) % M64

/-- `symbolicExtra.findIP`.  Note the source reassigns `ip` inside the
`functab != nil` block when `isReloc`, so the line lookup then also sees
the translated address; with a nil `functab` the line lookup sees the
original address.  Returns the matched function entry, the matched line
entry, and the updated `symbolicExtra` (the in-place demangling mutates
the Range Table through the returned pointer in Go). -/
def findIP (dem : String → String) (s : symbolicExtra) (mmap : Mmap) (ip : Nat) :
    Option funcRange × Option LineEntry × symbolicExtra :=
  match s.functab with
  | none =>
    let l := match s.linetab with
      | none => none
      | some lt => lineLookup lt ip
    (none, l, s)
  | some tab =>
    let ip2 := if s.isReloc then translate mmap ip else ip
    let fr := funcLookup dem tab ip2
    let l := match s.linetab with
      | none => none
      | some lt => lineLookup lt ip2
    (fr.1, l, { s with functab := some fr.2 })

/-- `setFuncHighPCs` (symbolize.go lines 361-372): fill in missing highpc
values in a sorted functab.  The source is an in-place index loop; since
the loop only ever writes `functab[i].highpc` and reads
`functab[i+1].lowpc` (never modified), the loop is equivalent to this
one-pass recursion.  The `functab[i].highpc++` on the last entry is a
`uint64` increment and wraps: at `lowpc = 2^64 - 1` the filled high
bound is 0. -/
def setFuncHighPCs : List funcRange → List funcRange
  | [] => []
  | [r] =>
    if r.highpc = r.lowpc then [⟨r.name, r.lowpc, (r.lowpc + 1) % M64, r.demangled⟩] else [r]
  | r :: r2 :: rest =>
    (if r.highpc = r.lowpc then ⟨r.name, r.lowpc, r2.lowpc, r.demangled⟩ else r)
      :: setFuncHighPCs (r2 :: rest)

/-- `sort.Sort(funcRangeSorter(...))`: sort ascending by `lowpc`.  Go's
sort is an unspecified unstable sort; the model fixes a concrete sorted
permutation (insertion sort), which agrees with the source on every table
without duplicate `lowpc` values. -/
def sortFuncs (l : List funcRange) : List funcRange :=
  List.insertionSort (fun a b => a.lowpc ≤ b.lowpc) l

/-! ### Kernel symbol parser (`newKallsyms`) -/

/-- Hexadecimal digit test, the character class of `kallsymsRe`. -/
def isHexDigit (c : Char) : Bool :=
  ('0' ≤ c ∧ c ≤ '9') ∨ ('a' ≤ c ∧ c ≤ 'f') ∨ ('A' ≤ c ∧ c ≤ 'F')

/-- Value of one hex digit. -/
def hexDigitVal (c : Char) : Nat :=
  if '0' ≤ c ∧ c ≤ '9' then c.toNat - '0'.toNat
  else if 'a' ≤ c ∧ c ≤ 'f' then c.toNat - 'a'.toNat + 10
  else if 'A' ≤ c ∧ c ≤ 'F' then c.toNat - 'A'.toNat + 10
  else 0

/-- `strconv.ParseUint(s, 16, 64)` with the error ignored, as the source
does: an empty string yields 0 (the error value), overflow yields the
maximal `uint64` (the `ErrRange` value). -/
def parseHex (ds : List Char) : Nat :=
  if ds = [] then 0
  else
    let v := ds.foldl (fun acc c => acc * 16 + hexDigitVal c) 0
    if v < M64 then v else M64 - 1

/-- Matching one line against `kallsymsRe` = `^([0-9a-fA-F]*) +(.) (.*)`,
with Go's leftmost/greedy backtracking semantics made explicit.  Group 1
is the maximal leading run of hex digits; then at least one space; with
`m` spaces available, the greedy parse takes all `m` spaces, one
character, a literal space, and the rest; if that fails and `m ≥ 3`, the
only successful backtrack takes `m-2` spaces and group 2 is a space
(filtered out later, since a space is not 't'/'T'); with `m ≤ 2` no
backtrack succeeds.  Returns (group 1, first char of group 2, group 3). -/
def kallsymsMatch (line : List Char) : Option (List Char × Char × List Char) :=
  let hex := line.takeWhile isHexDigit
  let rest0 := line.drop hex.length
  let m := (rest0.takeWhile (· = ' ')).length
  let rest1 := rest0.drop m
  if m = 0 then none
  else
    match rest1 with
    | c :: ' ' :: tail => some (hex, c, tail)
    | _ => if 3 ≤ m then some (hex, ' ', rest1) else none

/-- One iteration of the scan loop of `newKallsyms`: `nil` submatch or a
type character other than 't'/'T' contributes nothing; otherwise a
zero-width `funcRange` with `demangled = true` is appended. -/
def kallsymsEntry (line : List Char) : Option funcRange :=
  match kallsymsMatch line with
  | none => none
  | some (hex, typ, name) =>
    if typ = 't' ∨ typ = 'T' then
      some ⟨String.mk name, parseHex hex, parseHex hex, true⟩
    else none

/-- The kallsyms-line filter: lines that match the regexp with type
character 't' or 'T'. -/
def goodKallsymsLine (line : List Char) : Bool := (kallsymsEntry line).isSome

/-- Input to `newKallsyms`: either `os.Open` fails, or it yields the
successfully scanned lines together with whether `scanner.Err()` reports
a read failure afterwards. -/
inductive KallsymsInput where
  | openFail
  | ok (lines : List (List Char)) (scanErr : Bool)

/-- Outcome of a loader: a value returned to the caller, a recoverable
error returned to the caller, or a `log.Fatal` that aborts the whole
process. -/
inductive LoadOutcome (α : Type) where
  | ok (a : α)
  | err
  | fatal
deriving Repr, DecidableEq

/-- `newKallsyms` (symbolize.go lines 164-195): scan the nm-style symbol
list, keep 't'/'T' lines, sort, fill high PCs; a scan read failure is
returned as an error; `linetab` is nil and `isReloc` false. -/
def newKallsyms : KallsymsInput → LoadOutcome symbolicExtra
  | .openFail => .err
  | .ok lines scanErr =>
    let functab := lines.filterMap kallsymsEntry
    if scanErr then .err
    else .ok ⟨some (setFuncHighPCs (sortFuncs functab)), none, false⟩

/-! ### ELF symbol fallback (`elfFuncTable`) -/

/-- The ELF object types the source distinguishes (`elf.ET_EXEC`,
`elf.ET_DYN`, anything else). -/
inductive ElfType where
  | EXEC
  | DYN
  | other
deriving Repr, DecidableEq

/-- One `elf.Symbol` as read by the source: name, value, size, the low
4 bits of `Info` (the symbol type), and the section index, with 0 =
`SHN_UNDEF`. -/
structure ElfSym where
  name : String
  value : Nat
  size : Nat
  symType : Nat
  section_ : Nat
deriving Repr, DecidableEq

/-- An ELF section header as read by the source: `Addr` and `Offset`. -/
structure ElfSection where
  addr : Nat
  offset : Nat
deriving Repr, DecidableEq

/-- Result of `elff.Symbols()`: the symbol list, `elf.ErrNoSymbols`, or
any other error. -/
inductive SymsResult where
  | ok (syms : List ElfSym)
  | noSymbols
  | err
deriving Repr, DecidableEq

/-- `STT_FUNC` = 2. -/
def STT_FUNC : Nat := 2

/-- One iteration of the symbol loop of `elfFuncTable`: skip non-function
and undefined symbols; under relocation, skip symbols with an
out-of-range section index and translate the value to a file offset
(`uint64` arithmetic); ranges are `[lowpc, lowpc+size)` mod 2^64. -/
def elfSymEntry (sections : List ElfSection) (isReloc : Bool) (sym : ElfSym) :
    Option funcRange :=
  if sym.symType = STT_FUNC ∧ sym.section_ ≠ 0 then
    if isReloc then
      if h : sym.section_ < sections.length then
        let sec := sections.get ⟨sym.section_, h⟩
        let lowpc := (sym.value + (M64 - sec.addr % M64) + sec.offset) % M64
        some ⟨sym.name, lowpc, (lowpc + sym.size) % M64, false⟩
      else none
    else some ⟨sym.name, sym.value, (sym.value + sym.size) % M64, false⟩
  else none

/-- `elfFuncTable` (symbolize.go lines 301-343).  Returns the Range Table
(`none` models returning a nil slice) and the `isReloc` flag; `.error ()`
models the `log.Fatalf` abort on a symbol-read error other than
`elf.ErrNoSymbols`. -/
def elfFuncTable (etype : ElfType) (sections : List ElfSection) (symsResult : SymsResult) :
    Except Unit (Option (List funcRange) × Bool) :=
  match etype with
  | .other => .ok (none, false)
  | _ =>
    let isReloc := etype = ElfType.DYN
    match symsResult with
    | .err => .error ()
    | .noSymbols => .ok (none, false)
    | .ok syms =>
      let out := syms.filterMap (elfSymEntry sections isReloc)
      .ok (some (setFuncHighPCs (sortFuncs out)), isReloc)

/-! ### DWARF tables (`dwarfFuncTable`, `dwarfLineTable`) -/

/-- The DWARF tags the source distinguishes. -/
inductive DTag where
  | subprogram
  | compileUnit
  | module_
  | namespace_
  | other
deriving Repr, DecidableEq

/-- The dynamic type of `ent.Val(dwarf.AttrHighpc)`: a `uint64`, an
`int64` (an offset from lowpc), or anything else (including absent). -/
inductive HighVal where
  | u64 (v : Nat)
  | i64 (v : Int)
  | absent
deriving Repr, DecidableEq

/-- What `dwarff.LineReader(ent)` and the subsequent `lr.Next` loop would
yield for a compilation unit: a `LineReader` error (`log.Fatal`), a nil
reader (unit has no line table), or the decoded entries followed either
by `io.EOF` (`decodeErr = false`) or by a decode error (`log.Fatal`,
`decodeErr = true`). -/
inductive LineProg where
  | noTable
  | readerErr
  | entries (es : List LineEntry) (decodeErr : Bool)
deriving Repr, DecidableEq

/-- A DWARF debugging-information entry as read by the source: its tag,
the `AttrLinkageName` (0x6e) string if present, the `AttrName` string if
present, the `AttrLowpc` uint64 if present, the `AttrHighpc` value, the
compilation unit's line program, and the child entries. -/
inductive DEntry where
  | mk (tag : DTag) (linkageName : Option String) (aname : Option String)
      (lowpc : Option Nat) (highpc : HighVal) (lineProg : LineProg)
      (children : List DEntry)

/-- The body of the `case dwarf.TagSubprogram` branch of
`dwarfFuncTable`: linkage name (already demangled) preferred over plain
name; entries without a name, without a lowpc, or with an unrecognized
highpc encoding are skipped; an `int64` highpc is `lowpc + uint64(v)`. -/
def subprogramRange (link aname : Option String) (low : Option Nat) (high : HighVal) :
    Option funcRange :=
  let nd : Option String × Bool :=
    match link with
    | some s => (some s, true)
    | none => (aname, false)
  match nd.1 with
  | none => none
  | some name =>
    match low with
    | none => none
    | some lowpc =>
      match high with
      | .u64 v => some ⟨name, lowpc, v, nd.2⟩
      | .i64 v => some ⟨name, lowpc, (lowpc + (v % ((2 : Int) ^ 64)).toNat) % M64, nd.2⟩
      | .absent => none

mutual

/-- The `Reader.Next` walk of `dwarfFuncTable` over a sibling list:
subprogram entries contribute a range and their children are skipped;
compile-unit, module and namespace entries are descended into; all other
entries (including the null end-of-children entries) are skipped. -/
def dwarfFuncEntries : List DEntry → List funcRange
  | [] => []
  | e :: rest => dwarfFuncEntry e ++ dwarfFuncEntries rest

/-- The contribution of one entry (and its subtree) to `dwarfFuncTable`. -/
def dwarfFuncEntry : DEntry → List funcRange
  | .mk tag link aname low high _ children =>
    match tag with
    | .subprogram => (subprogramRange link aname low high).toList
    | .compileUnit | .module_ | .namespace_ => dwarfFuncEntries children
    | .other => []

end

/-- The DWARF data of an image: the forest of entries a `Reader` walks. -/
structure DwarfData where
  root : List DEntry

/-- `dwarfFuncTable` (symbolize.go lines 242-299): collect subprogram
ranges, sort ascending by lowpc, return nil for an empty table.  Note:
no `setFuncHighPCs` on this path. -/
def dwarfFuncTable (d : DwarfData) : Option (List funcRange) :=
  let out := sortFuncs (dwarfFuncEntries d.root)
  if out.isEmpty then none else some out

mutual

/-- The `Reader.Next` walk of `dwarfLineTable` over a sibling list;
`.error ()` models a `log.Fatal` abort. -/
def dwarfLineWalk : List DEntry → Except Unit (List LineEntry)
  | [] => .ok []
  | e :: rest =>
    match dwarfLineEntry e with
    | .error _ => .error ()
    | .ok es =>
      match dwarfLineWalk rest with
      | .error _ => .error ()
      | .ok bs => .ok (es ++ bs)

/-- The contribution of one entry (and its subtree) to `dwarfLineTable`:
only compile units are decoded (a `LineReader` error or a decode error is
`log.Fatal`); the walk descends into a compile unit's children and skips
the children of everything else. -/
def dwarfLineEntry : DEntry → Except Unit (List LineEntry)
  | .mk tag _ _ _ _ prog children =>
    match tag with
    | .compileUnit =>
      match prog with
      | .readerErr => .error ()
      | .noTable => dwarfLineWalk children
      | .entries es decodeErr =>
        if decodeErr then .error ()
        else
          match dwarfLineWalk children with
          | .error _ => .error ()
          | .ok bs => .ok (es ++ bs)
    | _ => .ok []

end

/-- `dwarfLineTable` (symbolize.go lines 374-411): concatenate every
compilation unit's decoded line-number program, in walk order; `.error`
models the `log.Fatal` aborts. -/
def dwarfLineTable (d : DwarfData) : Except Unit (List LineEntry) :=
  dwarfLineWalk d.root

/-! ### Image Table Loader (`newSymbolicExtra`) -/

/-- The parsed ELF file as far as the source reads it. -/
structure ElfFile where
  etype : ElfType
  hasDebugInfo : Bool
  dwarf : Except Unit DwarfData
  sections : List ElfSection
  syms : SymsResult

/-- Result of `elf.Open`. -/
inductive OpenResult where
  | fail
  | ok (f : ElfFile)

/-- `newSymbolicExtra` (symbolize.go lines 123-160): an open failure or a
`DWARF()` failure is a recoverable error; a fully-linked executable with
a debug-info section gets DWARF function and line tables with `isReloc =
false`; everything else falls back to `elfFuncTable` (whose `log.Fatalf`
propagates as `.fatal`), with no line table. -/
def newSymbolicExtra (inp : OpenResult) : LoadOutcome symbolicExtra :=
  match inp with
  | .fail => .err
  | .ok f =>
    if f.etype = ElfType.EXEC ∧ f.hasDebugInfo = true then
      match f.dwarf with
      | .error _ => .err
      | .ok d =>
        match dwarfLineTable d with
        | .error _ => .fatal
        | .ok lt => .ok ⟨dwarfFuncTable d, some lt, false⟩
    else
      match elfFuncTable f.etype f.sections f.syms with
      | .error _ => .fatal
      | .ok (ft, isReloc) => .ok ⟨ft, none, isReloc⟩

/-! ### Per-session resolver cache (`getSymbolicExtra`) and `Symbolize` -/

/-- Character-list prefix test (second argument is the candidate
prefix). -/
def listStartsWith : List Char → List Char → Bool
  | _, [] => true
  | [], _ :: _ => false
  | c :: cs, p :: ps => c = p && listStartsWith cs ps

/-- Go's `strings.HasPrefix s p`. -/
def strStartsWith (s p : String) : Bool := listStartsWith s.data p.data

/-- The kallsyms pseudo-filename normalization at the top of
`getSymbolicExtra` (lines 80-84). -/
def normalizeFilename (filename : String) : String :=
  if strStartsWith filename "[kernel.kallsyms]" then "[kernel.kallsyms]" else filename

/-- A build-ID record from the session metadata. -/
structure BuildIDRec where
  filename : String
  buildID : String

/-- The build-ID cache path (line 99):
`buildIDDir / .build-id / first two characters / remainder`. -/
def buildIDPath (bdir : String) (bid : String) : String :=
  bdir ++ "/.build-id/" ++ bid.take 2 ++ "/" ++ bid.drop 2

/-- The image loaders as the cache sees them, abstracted over the file
system: a path either yields an Image Table or fails (`newSymbolicExtra`
and `newKallsyms` both return `(nil, err)` on failure, and the caller
only tests `err == nil` / `extra == nil`, so `Option` is the observable
behavior; a `log.Fatal` never returns at all). -/
structure Loaders where
  newSymbolicExtra : String → Option symbolicExtra
  newKallsyms : String → Option symbolicExtra

/-- The memoization table `map[string]*symbolicExtra` stored in
`session.Extra`: an association list where the first binding wins, `none`
modelling the nil sentinel. -/
def tblLookup : List (String × Option symbolicExtra) → String → Option (Option symbolicExtra)
  | [], _ => none
  | (k, v) :: rest, key => if k = key then some v else tblLookup rest key

/-- The build-ID loop of `getSymbolicExtra` (lines 97-109): for each
record whose filename matches, attempt a load from the cache path (via
`newKallsyms` for the kernel pseudo-file, else `newSymbolicExtra`),
stopping at the first success.  Also counts the loader invocations. -/
def tryBuildIDs (ld : Loaders) (bdir : String) (isKallsyms : Bool) (fname : String) :
    List BuildIDRec → Option symbolicExtra × Nat
  | [] => (none, 0)
  | b :: rest =>
    if b.filename = fname then
      let r := if isKallsyms then ld.newKallsyms (buildIDPath bdir b.buildID)
               else ld.newSymbolicExtra (buildIDPath bdir b.buildID)
      match r with
      | some e => (some e, 1)
      | none =>
        let rc := tryBuildIDs ld bdir isKallsyms fname rest
        (rc.1, rc.2 + 1)
    else tryBuildIDs ld bdir isKallsyms fname rest

/-- `getSymbolicExtra` (symbolize.go lines 61-121): normalize the
kallsyms pseudo-filename; return a memoized result if present; otherwise
store the nil sentinel, try the build-ID cache paths, fall back to the
original path (always via `newSymbolicExtra`), store and return the
outcome.  Returns the result, the updated memoization table, and the
number of loader invocations performed by this call. -/
def getSymbolicExtra (ld : Loaders) (bdir : String) (bids : List BuildIDRec)
    (tables : List (String × Option symbolicExtra)) (filename : String) :
    Option symbolicExtra × List (String × Option symbolicExtra) × Nat :=
  let isKallsyms := strStartsWith filename "[kernel.kallsyms]"
  let fname := normalizeFilename filename
  match tblLookup tables fname with
  | some v => (v, tables, 0)
  | none =>
    let tables1 := (fname, none) :: tables
    let bc := tryBuildIDs ld bdir isKallsyms fname bids
    match bc.1 with
    | some e => (some e, (fname, some e) :: tables1, bc.2)
    | none =>
      let e2 := ld.newSymbolicExtra fname
      (e2, (fname, e2) :: tables1, bc.2 + 1)

/-- `Symbolize` (symbolize.go lines 31-48): look up the mapping's image
tables; with no image, return `false` leaving `out` untouched; otherwise
fill `out` from `findIP` (empty function name on no range match, zero
line entry on no line match) and return `true`.  The table update records
the in-place mutation of the shared Range Table. -/
def Symbolize (dem : String → String) (ld : Loaders) (bdir : String)
    (bids : List BuildIDRec) (tables : List (String × Option symbolicExtra))
    (mmap : Mmap) (ip : Nat) (out : Symbolic) :
    Bool × Symbolic × List (String × Option symbolicExtra) :=
  let g := getSymbolicExtra ld bdir bids tables mmap.filename
  match g.1 with
  | none => (false, out, g.2.1)
  | some s =>
    let r := findIP dem s mmap ip
    (true,
     ⟨match r.1 with
       | none => ""
       | some fr => fr.name,
      match r.2.1 with
       | none => zeroLineEntry
       | some le => le⟩,
     (normalizeFilename mmap.filename, some r.2.2) :: g.2.1)

/-! ## Theorems -/

/-- Correctness of the `sort.Search` loop: with enough fuel and a
monotone predicate on the searched window, the loop returns the least
index satisfying the predicate (or the upper bound). -/
theorem searchLoopAux_spec (f : Nat → Bool) :
    ∀ (fuel i j : Nat), j - i ≤ fuel → i ≤ j →
      (∀ a b, i ≤ a → a ≤ b → b < j → f a = true → f b = true) →
      i ≤ searchLoopAux f fuel i j ∧ searchLoopAux f fuel i j ≤ j ∧
      (∀ k, i ≤ k → k < searchLoopAux f fuel i j → f k = false) ∧
      (searchLoopAux f fuel i j < j → f (searchLoopAux f fuel i j) = true) := by
  intro fuel
  induction fuel with
  | zero =>
    intro i j hfuel hij _
    have hji : i = j := by omega
    subst hji
    simp only [searchLoopAux]
    exact ⟨Nat.le_refl i, Nat.le_refl i, fun k hk hk2 => absurd hk2 (by omega),
      fun hlt => absurd hlt (by omega)⟩
  | succ fuel ih =>
    intro i j hfuel hij mono
    by_cases h : i < j
    · have hm1 : i ≤ (i + j) / 2 := by omega
      have hm2 : (i + j) / 2 < j := by omega
      by_cases hf : f ((i + j) / 2) = true
      · have heq : searchLoopAux f (fuel + 1) i j = searchLoopAux f fuel i ((i + j) / 2) := by
          simp [searchLoopAux, h, hf]
        rw [heq]
        have hrec := ih i ((i + j) / 2) (by omega) (by omega)
          (fun a b ha hab hb hfa => mono a b ha hab (by omega) hfa)
        obtain ⟨h1, h2, h3, h4⟩ := hrec
        refine ⟨h1, by omega, h3, ?_⟩
        intro _
        by_cases hr : searchLoopAux f fuel i ((i + j) / 2) < (i + j) / 2
        · exact h4 hr
        · have hreq : searchLoopAux f fuel i ((i + j) / 2) = (i + j) / 2 := by omega
          rw [hreq]
          exact hf
      · have heq : searchLoopAux f (fuel + 1) i j = searchLoopAux f fuel ((i + j) / 2 + 1) j := by
          simp [searchLoopAux, h, hf]
        rw [heq]
        have hrec := ih ((i + j) / 2 + 1) j (by omega) (by omega)
          (fun a b ha hab hb hfa => mono a b (by omega) hab hb hfa)
        obtain ⟨h1, h2, h3, h4⟩ := hrec
        refine ⟨by omega, h2, ?_, h4⟩
        intro k hk hk2
        by_cases hkm : (i + j) / 2 + 1 ≤ k
        · exact h3 k hkm hk2
        · cases hfk : f k with
          | false => rfl
          | true =>
            exact absurd (mono k ((i + j) / 2) hk (by omega) hm2 hfk) (by simp [hf])
    · have heq : searchLoopAux f (fuel + 1) i j = i := by
        simp [searchLoopAux, h]
      rw [heq]
      exact ⟨Nat.le_refl i, hij, fun k hk hk2 => absurd hk2 (by omega),
        fun hlt => absurd hlt h⟩

/-- `sort.Search n f` with a monotone predicate returns the least index
in `[0, n]` at which `f` holds. -/
theorem sortSearch_spec (n : Nat) (f : Nat → Bool)
    (mono : ∀ a b, a ≤ b → b < n → f a = true → f b = true) :
    sortSearch n f ≤ n ∧ (∀ k, k < sortSearch n f → f k = false) ∧
      (sortSearch n f < n → f (sortSearch n f) = true) := by
  have h := searchLoopAux_spec f n 0 n (by omega) (by omega)
    (fun a b _ hab hb hfa => mono a b hab hb hfa)
  exact ⟨h.2.1, fun k hk => h.2.2.1 k (Nat.zero_le k) hk, h.2.2.2⟩

/-- A sequence that is nondecreasing between neighbours below `n` is
nondecreasing on `[0, n)`. -/
theorem mono_of_adjacent (g : Nat → Nat) (n : Nat)
    (h : ∀ i, i + 1 < n → g i ≤ g (i + 1)) (a : Nat) :
    ∀ b, a ≤ b → b < n → g a ≤ g b := by
  intro b
  induction b with
  | zero =>
    intro h1 _
    have ha : a = 0 := by omega
    simp [ha]
  | succ b ih =>
    intro h1 h2
    rcases Nat.lt_or_ge a (b + 1) with hlt | hge
    · exact Nat.le_trans (ih (by omega) (by omega)) (h b h2)
    · have ha : a = b + 1 := by omega
      simp [ha]

/-- `nth` agrees with `List.get` in range. -/
theorem nth_eq_get [Inhabited α] (l : List α) (i : Nat) (h : i < l.length) :
    nth l i = l.get ⟨i, h⟩ := by
  simp [nth, List.getD_eq_getElem?_getD, List.getElem?_eq_getElem h]

/-- C1: For every sorted Range Table (the spec's Range Table invariant:
entries ascending by low with non-overlapping `[low, high)` ranges) and
every address `ip`, if `ip` lies strictly within `[low_t, high_t)` of
range `t` then the Address Resolver's function lookup (binary search for
the first entry whose high bound exceeds `ip`, then the `low_t ≤ ip`
check) returns range `t` — its name being the stored name, demangled
once on first return; and if `ip` lies outside every range it returns no
function match. -/
theorem funcLookup_correct (dem : String → String) (tab : List funcRange) (ip : Nat)
    (hadj : ∀ i, i + 1 < tab.length → (nth tab i).highpc ≤ (nth tab (i + 1)).lowpc)
    (hwf : ∀ i, i < tab.length → (nth tab i).lowpc ≤ (nth tab i).highpc) :
    (∀ t, t < tab.length → (nth tab t).lowpc ≤ ip → ip < (nth tab t).highpc →
      (funcLookup dem tab ip).1 =
        some (if (nth tab t).demangled then nth tab t
          else ⟨dem (nth tab t).name, (nth tab t).lowpc, (nth tab t).highpc, true⟩)) ∧
    ((∀ i, i < tab.length → ¬((nth tab i).lowpc ≤ ip ∧ ip < (nth tab i).highpc)) →
      (funcLookup dem tab ip).1 = none) := by
  have hlow : ∀ a b, a ≤ b → b < tab.length → (nth tab a).lowpc ≤ (nth tab b).lowpc :=
    mono_of_adjacent (fun k => (nth tab k).lowpc) tab.length
      (fun i hi => Nat.le_trans (hwf i (by omega)) (hadj i hi))
  have hmono : ∀ a b, a ≤ b → b < tab.length →
      (decide (ip < (nth tab a).highpc)) = true → (decide (ip < (nth tab b).highpc)) = true := by
    intro a b hab hb ha
    have hh : (nth tab a).highpc ≤ (nth tab b).highpc :=
      mono_of_adjacent (fun k => (nth tab k).highpc) tab.length
        (fun i hi => Nat.le_trans (hadj i hi) (hwf (i + 1) hi)) a b hab hb
    simp only [decide_eq_true_eq] at ha ⊢
    omega
  have hs := sortSearch_spec tab.length (fun k => decide (ip < (nth tab k).highpc)) hmono
  have hidx : searchIdx tab ip = sortSearch tab.length (fun k => decide (ip < (nth tab k).highpc)) := rfl
  rw [← hidx] at hs
  constructor
  · intro t ht h1 h2
    have hr_le_t : searchIdx tab ip ≤ t := by
      by_contra hc
      have hft := hs.2.1 t (by omega)
      simp only [decide_eq_false_iff_not, Nat.not_lt] at hft
      omega
    have hrn : searchIdx tab ip < tab.length := by omega
    have hfr : ip < (nth tab (searchIdx tab ip)).highpc := by
      have hp := hs.2.2 hrn
      simpa using hp
    have hrt : searchIdx tab ip = t := by
      rcases Nat.eq_or_lt_of_le hr_le_t with he | hlt
      · exact he
      · exfalso
        have hstep : (nth tab (searchIdx tab ip)).highpc ≤ (nth tab (searchIdx tab ip + 1)).lowpc :=
          hadj _ (by omega)
        have hlt2 : (nth tab (searchIdx tab ip + 1)).lowpc ≤ (nth tab t).lowpc :=
          hlow _ _ (by omega) ht
        omega
    simp only [funcLookup, hrt]
    rw [dif_pos ht, ← nth_eq_get tab t ht, if_pos ⟨h1, h2⟩]
    by_cases hd : (nth tab t).demangled
    · rw [if_pos hd]
      simp [hd]
    · rw [if_neg hd]
      simp [hd]
  · intro hout
    by_cases hin : searchIdx tab ip < tab.length
    · have hni := hout _ hin
      simp only [funcLookup]
      rw [dif_pos hin, ← nth_eq_get _ _ hin, if_neg hni]
    · simp only [funcLookup]
      rw [dif_neg hin]

/-- Witness for C1: in the table `[foo:[0,5), bar:[5,10)]` the address 7
resolves to `bar` (already demangled), and the address 12 resolves to no
function. -/
theorem funcLookup_correct_witness :
    (funcLookup (fun s => s ++ "@") [⟨"foo", 0, 5, false⟩, ⟨"bar", 5, 10, true⟩] 7).1 =
        some ⟨"bar", 5, 10, true⟩ ∧
      (funcLookup (fun s => s ++ "@") [⟨"foo", 0, 5, false⟩, ⟨"bar", 5, 10, true⟩] 12).1 = none := by
  have hadj : ∀ i, i + 1 < ([⟨"foo", 0, 5, false⟩, ⟨"bar", 5, 10, true⟩] : List funcRange).length →
      (nth ([⟨"foo", 0, 5, false⟩, ⟨"bar", 5, 10, true⟩] : List funcRange) i).highpc ≤
        (nth ([⟨"foo", 0, 5, false⟩, ⟨"bar", 5, 10, true⟩] : List funcRange) (i + 1)).lowpc := by
    intro i hi
    simp only [List.length_cons, List.length_nil] at hi
    have h0 : i = 0 := by omega
    subst h0
    decide
  have hwf : ∀ i, i < ([⟨"foo", 0, 5, false⟩, ⟨"bar", 5, 10, true⟩] : List funcRange).length →
      (nth ([⟨"foo", 0, 5, false⟩, ⟨"bar", 5, 10, true⟩] : List funcRange) i).lowpc ≤
        (nth ([⟨"foo", 0, 5, false⟩, ⟨"bar", 5, 10, true⟩] : List funcRange) i).highpc := by
    intro i hi
    simp only [List.length_cons, List.length_nil] at hi
    match i, hi with
    | 0, _ => decide
    | 1, _ => decide
  constructor
  · have h := funcLookup_correct (fun s => s ++ "@")
      [⟨"foo", 0, 5, false⟩, ⟨"bar", 5, 10, true⟩] 7 hadj hwf
    have h2 := h.1 1 (by decide) (by decide) (by decide)
    rw [h2]
    decide
  · have h := funcLookup_correct (fun s => s ++ "@")
      [⟨"foo", 0, 5, false⟩, ⟨"bar", 5, 10, true⟩] 12 hadj hwf
    refine h.2 ?_
    intro i hi
    simp only [List.length_cons, List.length_nil] at hi
    match i, hi with
    | 0, _ => decide
    | 1, _ => decide

/-- C8: For a position-independent Image Table (`isReloc = true`) the
function lookup searches the translated address
`ip - mmap.addr + mmap.fileOffset` (uint64 arithmetic); in particular,
with `fileOffset = 0`, resolving runtime address `addr + k` matches the
same range as looking up file offset `k` directly; with `isReloc = false`
the address is used unchanged. -/
theorem findIP_reloc_translation (dem : String → String) (tab : List funcRange)
    (lt : Option (List LineEntry)) (mmap : Mmap) (ip : Nat) (fn : String)
    (addr k : Nat) (hk : k < M64) :
    (findIP dem ⟨some tab, lt, true⟩ mmap ip).1 = (funcLookup dem tab (translate mmap ip)).1 ∧
    (findIP dem ⟨some tab, lt, false⟩ mmap ip).1 = (funcLookup dem tab ip).1 ∧
    (findIP dem ⟨some tab, lt, true⟩ ⟨fn, addr, 0⟩ ((addr + k) % M64)).1 =
      (funcLookup dem tab k).1 := by
  have htr : translate ⟨fn, addr, 0⟩ ((addr + k) % M64) = k := by
    simp only [translate, M64] at *
    norm_num at *
    omega
  refine ⟨by simp [findIP], by simp [findIP], ?_⟩
  simp [findIP, htr]

/-- Witness for C8: under a mapping based at 28672 with file offset 0,
runtime address 28672 + 9 resolves against the file-offset Range Table
exactly as offset 9 does. -/
theorem findIP_reloc_translation_witness :
    (findIP (fun s => s) ⟨some [⟨"bar", 5, 16, true⟩], none, true⟩
        ⟨"so", 28672, 0⟩ ((28672 + 9) % M64)).1 =
      (funcLookup (fun s => s) [⟨"bar", 5, 16, true⟩] 9).1 := by
  exact (findIP_reloc_translation (fun s => s) [⟨"bar", 5, 16, true⟩] none
    ⟨"", 0, 0⟩ 0 "so" 28672 9 (by norm_num [M64])).2.2

/-- C6: For every Image Table satisfying the program's construction
invariant (a present Line Table forces `isReloc = false`, see C10), the
line lookup is performed against the original, untranslated query
address, independently of the relocation translation applied to the
function lookup. -/
theorem lineLookup_untranslated (dem : String → String) (s : symbolicExtra) (mmap : Mmap)
    (ip : Nat) (hinv : s.linetab.isSome = true → s.isReloc = false) :
    (findIP dem s mmap ip).2.1 =
      match s.linetab with
      | none => none
      | some lt => lineLookup lt ip := by
  obtain ⟨ft, lt, ir⟩ := s
  cases ft with
  | none => cases lt <;> simp [findIP]
  | some tab =>
    cases lt with
    | none => simp [findIP]
    | some ltab =>
      have hir : ir = false := hinv (by simp)
      subst hir
      simp [findIP]

/-- Witness for C6: a non-relocated table with one line entry serves the
query address 6 directly. -/
theorem lineLookup_untranslated_witness :
    (findIP (fun s => s) ⟨some [], some [⟨4, "a.c", 1, false⟩], false⟩ ⟨"m", 100, 0⟩ 6).2.1 =
      lineLookup [⟨4, "a.c", 1, false⟩] 6 := by
  have h := lineLookup_untranslated (fun s => s)
    ⟨some [], some [⟨4, "a.c", 1, false⟩], false⟩ ⟨"m", 100, 0⟩ 6 (fun _ => rfl)
  simpa using h

/-- C7: on the first matching lookup of a range whose cached-demangled
bit is clear, the stored name is transformed exactly once, overwritten,
and the bit set; every later lookup that matches the same range skips
re-demangling, returning the now-stored name unchanged and leaving the
table unchanged. -/
theorem demangle_applied_once (dem : String → String) (tab : List funcRange) (ip : Nat)
    (nm : String) (lo hi : Nat)
    (hlt : searchIdx tab ip < tab.length)
    (hentry : nth tab (searchIdx tab ip) = ⟨nm, lo, hi, false⟩)
    (hacc1 : lo ≤ ip) (hacc2 : ip < hi) :
    funcLookup dem tab ip =
        (some ⟨dem nm, lo, hi, true⟩, tab.set (searchIdx tab ip) ⟨dem nm, lo, hi, true⟩) ∧
      ∀ ip2, searchIdx (tab.set (searchIdx tab ip) ⟨dem nm, lo, hi, true⟩) ip2 = searchIdx tab ip →
        lo ≤ ip2 → ip2 < hi →
        funcLookup dem (tab.set (searchIdx tab ip) ⟨dem nm, lo, hi, true⟩) ip2 =
          (some ⟨dem nm, lo, hi, true⟩, tab.set (searchIdx tab ip) ⟨dem nm, lo, hi, true⟩) := by
  have hget : tab.get ⟨searchIdx tab ip, hlt⟩ = ⟨nm, lo, hi, false⟩ := by
    rw [← nth_eq_get _ _ hlt]
    exact hentry
  constructor
  · simp only [funcLookup]
    rw [dif_pos hlt, hget]
    simp [hacc1, hacc2]
  · intro ip2 hidx2 h1 h2
    have hlen : (tab.set (searchIdx tab ip) ⟨dem nm, lo, hi, true⟩).length = tab.length := by
      simp
    have hlt' : searchIdx (tab.set (searchIdx tab ip) ⟨dem nm, lo, hi, true⟩) ip2 <
        (tab.set (searchIdx tab ip) ⟨dem nm, lo, hi, true⟩).length := by
      rw [hidx2, hlen]
      exact hlt
    have hget' : (tab.set (searchIdx tab ip) ⟨dem nm, lo, hi, true⟩).get ⟨_, hlt'⟩ =
        ⟨dem nm, lo, hi, true⟩ := by
      simp only [List.get_eq_getElem, hidx2]
      exact List.getElem_set_self (by rw [hlen] at hlt' ⊢; omega)
    simp only [funcLookup]
    rw [dif_pos hlt', hget']
    simp [h1, h2]

/-- Witness for C7: looking up address 2 in `[x:[0,5) undemangled]`
demangles once and stores the result; looking up address 3 afterwards
returns the stored name with the table unchanged. -/
theorem demangle_applied_once_witness :
    funcLookup (fun s => "D:" ++ s) [⟨"x", 0, 5, false⟩] 2 =
        (some ⟨"D:" ++ "x", 0, 5, true⟩, [⟨"D:" ++ "x", 0, 5, true⟩]) ∧
      funcLookup (fun s => "D:" ++ s) [⟨"D:" ++ "x", 0, 5, true⟩] 3 =
        (some ⟨"D:" ++ "x", 0, 5, true⟩, [⟨"D:" ++ "x", 0, 5, true⟩]) := by
  have h := demangle_applied_once (fun s => "D:" ++ s) [⟨"x", 0, 5, false⟩] 2 "x" 0 5
    (by decide) (by decide) (by decide) (by decide)
  refine ⟨h.1, ?_⟩
  exact h.2 3 (by decide) (by decide) (by decide)

/-- C3: the per-session memoization invariant of `getSymbolicExtra`:
after any request, the (normalized) filename is bound in the memoization
table to the returned result — including the nil sentinel for a failed
locate — and a repeated request for the same filename returns the stored
result with the table unchanged and performs zero loader invocations
(the locate chain, the one build attempt per filename, never runs
again). -/
theorem getSymbolicExtra_memoizes (ld : Loaders) (bdir : String) (bids : List BuildIDRec)
    (tables : List (String × Option symbolicExtra)) (filename : String) :
    tblLookup (getSymbolicExtra ld bdir bids tables filename).2.1 (normalizeFilename filename) =
        some (getSymbolicExtra ld bdir bids tables filename).1 ∧
      getSymbolicExtra ld bdir bids (getSymbolicExtra ld bdir bids tables filename).2.1 filename =
        ((getSymbolicExtra ld bdir bids tables filename).1,
          (getSymbolicExtra ld bdir bids tables filename).2.1, 0) := by
  cases h : tblLookup tables (normalizeFilename filename) with
  | some v =>
    constructor
    · simp [getSymbolicExtra, h]
    · simp [getSymbolicExtra, h]
  | none =>
    cases hb : (tryBuildIDs ld bdir (strStartsWith filename "[kernel.kallsyms]")
        (normalizeFilename filename) bids).1 with
    | some e =>
      constructor
      · simp [getSymbolicExtra, h, hb, tblLookup]
      · simp [getSymbolicExtra, h, hb, tblLookup]
    | none =>
      constructor
      · simp [getSymbolicExtra, h, hb, tblLookup]
      · simp [getSymbolicExtra, h, hb, tblLookup]

/-- C2: `Symbolize` returns `success = false` exactly when the resolver
cache yields no image for the mapping's filename; when an image is found
it returns `success = true`, with an empty function name if the address
matched no range and the zero line entry if it matched no line entry. -/
theorem Symbolize_success_semantics (dem : String → String) (ld : Loaders) (bdir : String)
    (bids : List BuildIDRec) (tables : List (String × Option symbolicExtra))
    (mmap : Mmap) (ip : Nat) (out : Symbolic) :
    ((Symbolize dem ld bdir bids tables mmap ip out).1 = false ↔
        (getSymbolicExtra ld bdir bids tables mmap.filename).1 = none) ∧
      ∀ s, (getSymbolicExtra ld bdir bids tables mmap.filename).1 = some s →
        (Symbolize dem ld bdir bids tables mmap ip out).1 = true ∧
        ((findIP dem s mmap ip).1 = none →
          (Symbolize dem ld bdir bids tables mmap ip out).2.1.funcName = "") ∧
        ((findIP dem s mmap ip).2.1 = none →
          (Symbolize dem ld bdir bids tables mmap ip out).2.1.line = zeroLineEntry) := by
  cases hg : (getSymbolicExtra ld bdir bids tables mmap.filename).1 with
  | none =>
    constructor
    · simp [Symbolize, hg]
    · intro s hs
      exact absurd hs (by simp)
  | some s =>
    constructor
    · simp [Symbolize, hg]
    · intro s' hs'
      have hss : s' = s := by injection hs' with h2; exact h2.symm
      subst hss
      refine ⟨by simp [Symbolize, hg], ?_, ?_⟩
      · intro hf
        simp [Symbolize, hg, hf]
      · intro hl
        simp [Symbolize, hg, hl]

/-- Witness for C2: with a loader that finds an image with no tables at
all, `Symbolize` succeeds with an empty function name and the zero line
entry. -/
theorem Symbolize_success_semantics_witness :
    (Symbolize (fun s => s) ⟨fun _ => some ⟨none, none, false⟩, fun _ => none⟩ ".debug" [] []
        ⟨"f", 0, 0⟩ 5 ⟨"q", zeroLineEntry⟩).1 = true ∧
      (Symbolize (fun s => s) ⟨fun _ => some ⟨none, none, false⟩, fun _ => none⟩ ".debug" [] []
        ⟨"f", 0, 0⟩ 5 ⟨"q", zeroLineEntry⟩).2.1.funcName = "" ∧
      (Symbolize (fun s => s) ⟨fun _ => some ⟨none, none, false⟩, fun _ => none⟩ ".debug" [] []
        ⟨"f", 0, 0⟩ 5 ⟨"q", zeroLineEntry⟩).2.1.line = zeroLineEntry := by
  have h := Symbolize_success_semantics (fun s => s)
    ⟨fun _ => some ⟨none, none, false⟩, fun _ => none⟩ ".debug" [] [] ⟨"f", 0, 0⟩ 5
    ⟨"q", zeroLineEntry⟩
  have h2 := h.2 ⟨none, none, false⟩ (by decide)
  exact ⟨h2.1, h2.2.1 (by decide), h2.2.2 (by decide)⟩

/-- C10: every Image Table ever constructed — by `newSymbolicExtra`
(DWARF path or ELF-symbol fallback) or by `newKallsyms` — satisfies the
invariant that a present Line Table forces `isReloc = false`: only the
fully-linked-executable DWARF path produces a Line Table, and it always
sets the relocation flag false. -/
theorem linetab_implies_no_reloc :
    ∀ e : symbolicExtra,
      ((∃ inp, newSymbolicExtra inp = .ok e) ∨ (∃ inp, newKallsyms inp = .ok e)) →
      e.linetab.isSome = true → e.isReloc = false := by
  intro e hcon hsome
  rcases hcon with ⟨inp, h⟩ | ⟨inp, h⟩
  · cases inp with
    | fail => exact absurd h (by simp [newSymbolicExtra])
    | ok f =>
      simp only [newSymbolicExtra] at h
      split at h
      · split at h
        · simp at h
        · split at h
          · simp at h
          · injection h with h2
            subst h2
            rfl
      · split at h
        · simp at h
        · injection h with h2
          subst h2
          simp at hsome
  · cases inp with
    | openFail => exact absurd h (by simp [newKallsyms])
    | ok lines scanErr =>
      simp only [newKallsyms] at h
      split at h
      · simp at h
      · injection h with h2
        subst h2
        rfl

/-- Witness for C10: an executable with debug info but no compilation
units yields an Image Table with an empty-but-present Line Table and
`isReloc = false`. -/
theorem linetab_implies_no_reloc_witness :
    newSymbolicExtra (.ok ⟨.EXEC, true, .ok ⟨[]⟩, [], .noSymbols⟩) =
        .ok ⟨none, some [], false⟩ ∧
      (⟨none, some [], false⟩ : symbolicExtra).isReloc = false := by
  refine ⟨rfl, ?_⟩
  exact linetab_implies_no_reloc ⟨none, some [], false⟩
    (Or.inl ⟨.ok ⟨.EXEC, true, .ok ⟨[]⟩, [], .noSymbols⟩, rfl⟩) rfl

/-- Counterexample to C4: decoding failures do abort.  An executable with
debug info whose compilation unit's line reader fails, and a shared
object whose symbol read fails with an error other than
`elf.ErrNoSymbols`, both end in `log.Fatal` (modelled `.fatal`), which
aborts the process rather than reporting a recoverable error. -/
theorem loader_fatal_counterexample :
    newSymbolicExtra (.ok ⟨.EXEC, true,
        .ok ⟨[.mk .compileUnit none none none .absent .readerErr []]⟩, [], .noSymbols⟩) =
        .fatal ∧
      newSymbolicExtra (.ok ⟨.DYN, false, .ok ⟨[]⟩, [], .err⟩) = .fatal ∧
      (LoadOutcome.fatal : LoadOutcome symbolicExtra) ≠ .err := by
  refine ⟨rfl, rfl, ?_⟩
  intro h
  exact absurd h (by simp)

/-- C4 as amended: a failure to open or parse the image, or to load its
DWARF data, is reported to the caller as a recoverable error; but a
failure while reading ELF symbols (other than the benign
`elf.ErrNoSymbols`, on the symbol-table path of an executable or shared
object) and a failure while decoding a compilation unit's line-number
program call `log.Fatal` and abort the process; absent symbols are
handled recoverably with an empty table. -/
theorem loader_error_behavior :
    newSymbolicExtra .fail = .err ∧
      (∀ f : ElfFile, f.etype = ElfType.EXEC → f.hasDebugInfo = true →
        f.dwarf = .error () → newSymbolicExtra (.ok f) = .err) ∧
      (∀ (f : ElfFile) (d : DwarfData), f.etype = ElfType.EXEC → f.hasDebugInfo = true →
        f.dwarf = .ok d → dwarfLineTable d = .error () → newSymbolicExtra (.ok f) = .fatal) ∧
      (∀ f : ElfFile, ¬(f.etype = ElfType.EXEC ∧ f.hasDebugInfo = true) →
        f.etype ≠ ElfType.other → f.syms = .err → newSymbolicExtra (.ok f) = .fatal) ∧
      (∀ f : ElfFile, ¬(f.etype = ElfType.EXEC ∧ f.hasDebugInfo = true) →
        f.syms = .noSymbols → newSymbolicExtra (.ok f) = .ok ⟨none, none, false⟩) := by
  refine ⟨rfl, ?_, ?_, ?_, ?_⟩
  · intro f h1 h2 h3
    simp [newSymbolicExtra, h1, h2, h3]
  · intro f d h1 h2 h3 h4
    simp [newSymbolicExtra, h1, h2, h3, h4]
  · intro f h1 h2 h3
    cases he : f.etype with
    | other => exact absurd he h2
    | EXEC =>
      simp only [newSymbolicExtra, elfFuncTable, he, h3]
      rw [he] at h1
      have hdb : f.hasDebugInfo = false := by
        cases hv : f.hasDebugInfo
        · rfl
        · exact absurd ⟨rfl, hv⟩ h1
      simp [hdb]
    | DYN => simp [newSymbolicExtra, elfFuncTable, he, h1, h3]
  · intro f h1 h2
    cases he : f.etype with
    | other => simp [newSymbolicExtra, elfFuncTable, he, h1]
    | EXEC =>
      simp only [newSymbolicExtra, elfFuncTable, he, h2]
      rw [he] at h1
      have hdb : f.hasDebugInfo = false := by
        cases hv : f.hasDebugInfo
        · rfl
        · exact absurd ⟨rfl, hv⟩ h1
      simp [hdb]
    | DYN => simp [newSymbolicExtra, elfFuncTable, he, h1, h2]

/-- Witness for the amended C4. -/
theorem loader_error_behavior_witness :
    newSymbolicExtra (.ok ⟨.EXEC, true, .error (), [], .noSymbols⟩) = .err ∧
      newSymbolicExtra (.ok ⟨.DYN, false, .ok ⟨[]⟩, [], .err⟩) = .fatal ∧
      newSymbolicExtra (.ok ⟨.DYN, false, .ok ⟨[]⟩, [], .noSymbols⟩) = .ok ⟨none, none, false⟩ := by
  refine ⟨?_, ?_, ?_⟩
  · exact loader_error_behavior.2.1 ⟨.EXEC, true, .error (), [], .noSymbols⟩ rfl rfl rfl
  · exact loader_error_behavior.2.2.2.1 ⟨.DYN, false, .ok ⟨[]⟩, [], .err⟩ (by simp) (by simp) rfl
  · exact loader_error_behavior.2.2.2.2 ⟨.DYN, false, .ok ⟨[]⟩, [], .noSymbols⟩ (by simp) rfl

/-- `nth` on a cons at 0. -/
theorem nth_cons_zero [Inhabited α] (a : α) (l : List α) : nth (a :: l) 0 = a := rfl

/-- `nth` on a cons at a successor. -/
theorem nth_cons_succ [Inhabited α] (a : α) (l : List α) (k : Nat) :
    nth (a :: l) (k + 1) = nth l k := rfl

/-- `setFuncHighPCs` preserves the table length. -/
theorem setFuncHighPCs_length : ∀ t : List funcRange, (setFuncHighPCs t).length = t.length
  | [] => rfl
  | [r] => by
    simp only [setFuncHighPCs]
    split <;> rfl
  | r :: r2 :: rest => by
    simp only [setFuncHighPCs, List.length_cons]
    rw [setFuncHighPCs_length (r2 :: rest)]
    simp

/-- Pointwise characterization of `setFuncHighPCs`: entry `i` keeps its
name, low bound and demangled bit; a zero-width high bound becomes the
next entry's low bound, or `low + 1` in `uint64` arithmetic (wrapping
mod 2^64) for the last entry. -/
theorem setFuncHighPCs_nth : ∀ (t : List funcRange) (i : Nat), i < t.length →
    nth (setFuncHighPCs t) i =
      (if (nth t i).highpc = (nth t i).lowpc then
        ⟨(nth t i).name, (nth t i).lowpc,
          (if i + 1 = t.length then ((nth t i).lowpc + 1) % M64 else (nth t (i + 1)).lowpc),
          (nth t i).demangled⟩
       else nth t i)
  | [], i, hi => absurd hi (by simp)
  | [r], 0, _ => by
    simp only [setFuncHighPCs, nth_cons_zero, List.length_singleton]
    by_cases h : r.highpc = r.lowpc
    · rw [if_pos h]
      simp [nth_cons_zero, h]
    · rw [if_neg h]
      simp [nth_cons_zero, h]
  | [r], i + 1, hi => absurd hi (by simp)
  | r :: r2 :: rest, 0, _ => by
    simp only [setFuncHighPCs, nth_cons_zero, List.length_cons]
    by_cases h : r.highpc = r.lowpc
    · rw [if_pos h, if_pos h, if_neg (by omega), nth_cons_succ, nth_cons_zero]
    · rw [if_neg h, if_neg h]
  | r :: r2 :: rest, i + 1, hi => by
    have hi' : i < (r2 :: rest).length := by
      simp only [List.length_cons] at hi ⊢
      omega
    have IH := setFuncHighPCs_nth (r2 :: rest) i hi'
    simp only [setFuncHighPCs, nth_cons_succ]
    rw [IH]
    have hc : (i + 1 = (r2 :: rest).length) ↔ (i + 1 + 1 = (r :: r2 :: rest).length) := by
      simp only [List.length_cons]
      omega
    by_cases hl : i + 1 = (r2 :: rest).length
    · rw [if_pos hl] at *
      rw [if_pos (hc.mp hl)]
    · rw [if_neg hl, if_neg (fun hx => hl (hc.mpr hx)), nth_cons_succ]

/-- C5 as amended: the loader's gap-filling step (`setFuncHighPCs`,
applied on the ELF-symbol fallback and kernel-symbol paths; the DWARF
path sorts but does not gap-fill) extends every range whose high bound
equals its low bound to the next range's low, or, for the last entry, to
`low + 1` in `uint64` arithmetic (wrapping to 0 at `low = 2^64 - 1`);
consequently, when every input range is zero-width — as for a kernel
symbol table — the sorted, filled table covers every address from the
lowest low to the last filled high with no gaps and no overlaps.  The
cover-with-no-gaps consequence does not hold for arbitrary
non-overlapping inputs (see the counterexample). -/
theorem setFuncHighPCs_gapfill (tab : List funcRange)
    (hsorted : ∀ i, i + 1 < tab.length → (nth tab i).lowpc ≤ (nth tab (i + 1)).lowpc) :
    ((setFuncHighPCs tab).length = tab.length ∧
      ∀ i, i < tab.length →
        nth (setFuncHighPCs tab) i =
          (if (nth tab i).highpc = (nth tab i).lowpc then
            ⟨(nth tab i).name, (nth tab i).lowpc,
              (if i + 1 = tab.length then ((nth tab i).lowpc + 1) % M64
               else (nth tab (i + 1)).lowpc),
              (nth tab i).demangled⟩
           else nth tab i)) ∧
    ((∀ r ∈ tab, r.highpc = r.lowpc) → 0 < tab.length →
      (∀ a, (nth tab 0).lowpc ≤ a →
          a < (nth (setFuncHighPCs tab) (tab.length - 1)).highpc →
          ∃ j, j < tab.length ∧ (nth (setFuncHighPCs tab) j).lowpc ≤ a ∧
            a < (nth (setFuncHighPCs tab) j).highpc) ∧
      (∀ i j a, i < j → j < tab.length →
        ¬((nth (setFuncHighPCs tab) i).lowpc ≤ a ∧ a < (nth (setFuncHighPCs tab) i).highpc ∧
          (nth (setFuncHighPCs tab) j).lowpc ≤ a ∧
            a < (nth (setFuncHighPCs tab) j).highpc))) := by
  have hpoint := setFuncHighPCs_nth tab
  refine ⟨⟨setFuncHighPCs_length tab, hpoint⟩, ?_⟩
  intro hzero hlen
  have hz : ∀ i, i < tab.length → (nth tab i).highpc = (nth tab i).lowpc := by
    intro i hi
    refine hzero _ ?_
    rw [nth_eq_get _ _ hi]
    exact List.get_mem tab i hi
  have lowpres : ∀ i, i < tab.length →
      (nth (setFuncHighPCs tab) i).lowpc = (nth tab i).lowpc := by
    intro i hi
    rw [hpoint i hi]
    split <;> rfl
  have highchar : ∀ i, i < tab.length → (nth (setFuncHighPCs tab) i).highpc =
      (if i + 1 = tab.length then ((nth tab i).lowpc + 1) % M64
       else (nth tab (i + 1)).lowpc) := by
    intro i hi
    rw [hpoint i hi, if_pos (hz i hi)]
  constructor
  · intro a h0 hlast
    have hPstar := Nat.findGreatest_spec (P := fun k => (nth tab k).lowpc ≤ a) (m := 0)
      (Nat.zero_le (tab.length - 1)) h0
    have hstar_le := Nat.findGreatest_le (P := fun k => (nth tab k).lowpc ≤ a) (tab.length - 1)
    by_cases hstar : Nat.findGreatest (fun k => (nth tab k).lowpc ≤ a) (tab.length - 1) =
        tab.length - 1
    · rw [hstar] at hPstar
      exact ⟨tab.length - 1, by omega, by rw [lowpres _ (by omega)]; exact hPstar, hlast⟩
    · have hnot : ¬(nth tab
          (Nat.findGreatest (fun k => (nth tab k).lowpc ≤ a) (tab.length - 1) + 1)).lowpc ≤ a :=
        Nat.findGreatest_is_greatest (P := fun k => (nth tab k).lowpc ≤ a)
          (n := tab.length - 1) (by omega) (by omega)
      refine ⟨Nat.findGreatest (fun k => (nth tab k).lowpc ≤ a) (tab.length - 1),
        by omega, ?_, ?_⟩
      · rw [lowpres _ (by omega)]
        exact hPstar
      · rw [highchar _ (by omega), if_neg (by omega)]
        omega
  · intro i j a hij hj hcon
    obtain ⟨hi1, hi2, hj1, hj2⟩ := hcon
    rw [highchar i (by omega), if_neg (by omega)] at hi2
    have hmono := mono_of_adjacent (fun k => (nth tab k).lowpc) tab.length hsorted
      (i + 1) j (by omega) hj
    rw [lowpres j hj] at hj1
    simp only at hmono
    omega

/-- Counterexample to C5: the non-overlapping sorted input
`[a:[0,5), b:[10,12)]` is left unchanged by the gap-filling step (no
zero-width entries), yet address 7, which lies between the lowest low 0
and the last high 12, is covered by no range — the filled table does not
cover every address of `[0, 12)`. -/
theorem setFuncHighPCs_gap_counterexample :
    setFuncHighPCs [⟨"a", 0, 5, false⟩, ⟨"b", 10, 12, false⟩] =
        [⟨"a", 0, 5, false⟩, ⟨"b", 10, 12, false⟩] ∧
      (nth ([⟨"a", 0, 5, false⟩, ⟨"b", 10, 12, false⟩] : List funcRange) 0).highpc ≤
        (nth ([⟨"a", 0, 5, false⟩, ⟨"b", 10, 12, false⟩] : List funcRange) 1).lowpc ∧
      (nth ([⟨"a", 0, 5, false⟩, ⟨"b", 10, 12, false⟩] : List funcRange) 0).lowpc ≤ 7 ∧
      7 < (nth (setFuncHighPCs [⟨"a", 0, 5, false⟩, ⟨"b", 10, 12, false⟩]) 1).highpc ∧
      ¬((nth (setFuncHighPCs [⟨"a", 0, 5, false⟩, ⟨"b", 10, 12, false⟩]) 0).lowpc ≤ 7 ∧
          7 < (nth (setFuncHighPCs [⟨"a", 0, 5, false⟩, ⟨"b", 10, 12, false⟩]) 0).highpc) ∧
      ¬((nth (setFuncHighPCs [⟨"a", 0, 5, false⟩, ⟨"b", 10, 12, false⟩]) 1).lowpc ≤ 7 ∧
          7 < (nth (setFuncHighPCs [⟨"a", 0, 5, false⟩, ⟨"b", 10, 12, false⟩]) 1).highpc) := by
  decide

/-- Witness for the amended C5: a zero-width two-entry table (as built
from kernel symbols) is filled into the seamless partition
`[0,16) ∪ [16,17)`, and address 7 is covered. -/
theorem setFuncHighPCs_gapfill_witness :
    (setFuncHighPCs [⟨"a", 0, 0, true⟩, ⟨"b", 16, 16, true⟩]).length = 2 ∧
      (∃ j, j < ([⟨"a", 0, 0, true⟩, ⟨"b", 16, 16, true⟩] : List funcRange).length ∧
        (nth (setFuncHighPCs [⟨"a", 0, 0, true⟩, ⟨"b", 16, 16, true⟩]) j).lowpc ≤ 7 ∧
        7 < (nth (setFuncHighPCs [⟨"a", 0, 0, true⟩, ⟨"b", 16, 16, true⟩]) j).highpc) := by
  have h := setFuncHighPCs_gapfill [⟨"a", 0, 0, true⟩, ⟨"b", 16, 16, true⟩]
    (by
      intro i hi
      simp only [List.length_cons, List.length_nil] at hi
      have h0 : i = 0 := by omega
      subst h0
      decide)
  have hcov := (h.2 (by decide) (by decide)).1 7 (by decide) (by decide)
  exact ⟨by rw [h.1.1]; rfl, hcov⟩

/-- The scan loop keeps exactly the well-formed 't'/'T' lines. -/
theorem filterMap_kallsyms_length : ∀ lines : List (List Char),
    (lines.filterMap kallsymsEntry).length = lines.countP goodKallsymsLine
  | [] => rfl
  | l :: rest => by
    cases h : kallsymsEntry l with
    | none =>
      simp [List.filterMap_cons, h, List.countP_cons, goodKallsymsLine,
        filterMap_kallsyms_length rest]
    | some r =>
      simp [List.filterMap_cons, h, List.countP_cons, goodKallsymsLine,
        filterMap_kallsyms_length rest]

/-- `sortFuncs` permutes its input. -/
theorem sortFuncs_perm (l : List funcRange) : List.Perm (sortFuncs l) l :=
  List.perm_insertionSort _ l

/-- Gap-filling preserves each entry's name and low bound. -/
theorem setFuncHighPCs_mem : ∀ (t : List funcRange) (r' : funcRange), r' ∈ setFuncHighPCs t →
    ∃ r, r ∈ t ∧ r'.name = r.name ∧ r'.lowpc = r.lowpc
  | [], r', h => absurd h (by simp [setFuncHighPCs])
  | [r], r', h => by
    simp only [setFuncHighPCs] at h
    by_cases hc : r.highpc = r.lowpc
    · rw [if_pos hc] at h
      simp only [List.mem_singleton] at h
      exact ⟨r, by simp, by rw [h], by rw [h]⟩
    · rw [if_neg hc] at h
      simp only [List.mem_singleton] at h
      exact ⟨r, by simp, by rw [h], by rw [h]⟩
  | r :: r2 :: rest, r', h => by
    simp only [setFuncHighPCs, List.mem_cons] at h
    rcases h with h | h
    · refine ⟨r, by simp, ?_⟩
      by_cases hc : r.highpc = r.lowpc
      · rw [if_pos hc] at h
        subst h
        exact ⟨rfl, rfl⟩
      · rw [if_neg hc] at h
        subst h
        exact ⟨rfl, rfl⟩
    · obtain ⟨r0, hr0, hn, hl⟩ := setFuncHighPCs_mem (r2 :: rest) r' h
      exact ⟨r0, List.mem_cons_of_mem _ hr0, hn, hl⟩

/-- C9: the Kernel Symbol Parser produces a Range Table entry exactly for
lines matching the symbol regexp with type character 't' or 'T' (each
entry's name and address come from such a line, and the table has exactly
one entry per such line); malformed lines are silently skipped; a scan
read failure, like an open failure, is reported to the caller as an
error. -/
theorem newKallsyms_behavior :
    (∀ (lines : List (List Char)) (e : symbolicExtra),
      newKallsyms (.ok lines false) = .ok e →
      ∀ ft, e.functab = some ft →
        ft.length = lines.countP goodKallsymsLine ∧
        ∀ r ∈ ft, ∃ l, l ∈ lines ∧ ∃ hx c nm, kallsymsMatch l = some (hx, c, nm) ∧
          (c = 't' ∨ c = 'T') ∧ r.name = String.mk nm ∧ r.lowpc = parseHex hx) ∧
    (∀ lines, newKallsyms (.ok lines true) = .err) ∧
    newKallsyms .openFail = .err := by
  refine ⟨?_, fun lines => rfl, rfl⟩
  intro lines e he ft hft
  have he2 : e = ⟨some (setFuncHighPCs (sortFuncs (lines.filterMap kallsymsEntry))),
      none, false⟩ := by
    simp only [newKallsyms] at he
    injection he with h2
    exact h2.symm
  subst he2
  simp only at hft
  have hfteq : ft = setFuncHighPCs (sortFuncs (lines.filterMap kallsymsEntry)) := by
    injection hft with h2
    exact h2.symm
  subst hfteq
  constructor
  · rw [setFuncHighPCs_length, (sortFuncs_perm _).length_eq, filterMap_kallsyms_length]
  · intro r hr
    obtain ⟨r0, hr0s, hn, hl⟩ := setFuncHighPCs_mem _ r hr
    have hr0 : r0 ∈ lines.filterMap kallsymsEntry := (sortFuncs_perm _).mem_iff.mp hr0s
    rw [List.mem_filterMap] at hr0
    obtain ⟨l, hlin, hent⟩ := hr0
    cases hm : kallsymsMatch l with
    | none =>
      simp only [kallsymsEntry, hm] at hent
      exact absurd hent (by simp)
    | some trip =>
      obtain ⟨hx, c, nm⟩ := trip
      simp only [kallsymsEntry, hm] at hent
      by_cases hc : c = 't' ∨ c = 'T'
      · rw [if_pos hc] at hent
        injection hent with h2
        refine ⟨l, hlin, hx, c, nm, hm, hc, ?_, ?_⟩
        · rw [hn, ← h2]
        · rw [hl, ← h2]
      · rw [if_neg hc] at hent
        exact absurd hent (by simp)

/-- Witness for C9: of the two lines `ff T a` and `xyz`, only the first
(a global text symbol) contributes an entry; the second, malformed, is
skipped. -/
theorem newKallsyms_behavior_witness :
    ([⟨"a", 255, 256, true⟩] : List funcRange).length =
        List.countP goodKallsymsLine ["ff T a".toList, "xyz".toList] ∧
      newKallsyms (.ok ["ff T a".toList, "xyz".toList] false) =
        .ok ⟨some [⟨"a", 255, 256, true⟩], none, false⟩ := by
  have h := (newKallsyms_behavior).1 ["ff T a".toList, "xyz".toList]
    ⟨some [⟨"a", 255, 256, true⟩], none, false⟩ (by decide) [⟨"a", 255, 256, true⟩] rfl
  exact ⟨h.1, by decide⟩

end Perfsession
